import Mathlib

/-!
Verification development for the working-copy dirty-state registry
(`WorkingCopyService` in `workingCopyService.ts`) and its consumer
(`DirtyFilesTracker`).

Modelling conventions:
* A resource (URI) is represented by its canonical string form, since the
  service keys everything by `resource.toString()`.
* A working copy is a record of its identity (`id`), its immutable resource
  string, and its capability bit-set.  The mutable `isDirty()` state of a
  copy is supplied externally as an environment `env : Nat → Bool` mapping
  a copy's identity to its current dirty flag, because dirtiness changes
  over time while the registered copy object stays the same.
* The `TernarySearchTree` map from resource strings to `Set<IWorkingCopy>`
  is modelled as an association list with first-match lookup, single-key
  replace and single-key erase (a ternary search tree stores one node per
  key).  A JavaScript `Set` is modelled as a duplicate-free list in
  insertion order; `Set.delete` removes every occurrence, which on a
  duplicate-free list is the single occurrence.
* Each call to `registerWorkingCopy` installs one forwarding listener on
  the copy's `onDidChangeDirty` emitter; the listeners live in `subs`,
  tagged by the handle that owns them, in subscription order.
* Event emission is modelled by returning the list of payloads fired on
  the registry-level `onDidChangeDirty` emitter, in order.
-/

/-- A working copy: identity, canonical resource string (immutable for its
registered lifetime) and capability bit-set. -/
structure WorkingCopy where
  id : Nat
  resource : String
  capabilities : Nat
deriving DecidableEq, Repr

/-- The registry state of `WorkingCopyService`: the resource→copies index
(`mapResourceToWorkingCopy`) and the installed dirty-change forwarding
listeners (handle identifier paired with the copy it forwards). -/
structure RegistryState where
  index : List (String × List WorkingCopy)
  subs : List (Nat × WorkingCopy)
deriving DecidableEq, Repr

/-- The freshly constructed service: empty index, no listeners. -/
def emptyRegistry : RegistryState := { index := [], subs := [] }

/-- First-match lookup in the index, i.e. `mapResourceToWorkingCopy.get`. -/
def lookupIndex : List (String × List WorkingCopy) → String → Option (List WorkingCopy)
  | [], _ => none
  | p :: rest, r => if p.1 = r then some p.2 else lookupIndex rest r

/-- Replace the value stored under a key, i.e. `mapResourceToWorkingCopy.set`
on an existing key (one node per key in the search tree). -/
def updateKey : List (String × List WorkingCopy) → String → List WorkingCopy → List (String × List WorkingCopy)
  | [], _, _ => []
  | p :: rest, r, v => if p.1 = r then (r, v) :: rest else p :: updateKey rest r v

/-- Remove a key, i.e. `mapResourceToWorkingCopy.delete`. -/
def eraseKey : List (String × List WorkingCopy) → String → List (String × List WorkingCopy)
  | [], _ => []
  | p :: rest, r => if p.1 = r then rest else p :: eraseKey rest r

/-- All working copies currently stored in the index, i.e. the union of the
per-resource sets. -/
def copiesOf (idx : List (String × List WorkingCopy)) : List WorkingCopy :=
  (idx.map Prod.snd).flatten

/-- The currently registered working copies of a registry state. -/
def registeredCopies (s : RegistryState) : List WorkingCopy :=
  copiesOf s.index

/-- `WorkingCopyService.isDirty(resource)`: look the resource up in the index
and report whether any stored copy reports dirty. -/
def RegistryState.isDirty (env : Nat → Bool) (s : RegistryState) (r : String) : Bool :=
  match lookupIndex s.index r with
  | some workingCopies => workingCopies.any (fun workingCopy => env workingCopy.id)
  | none => false

/-- `WorkingCopyService.dirtyCount`: walk every per-resource set and count the
copies reporting dirty. -/
def RegistryState.dirtyCount (env : Nat → Bool) (s : RegistryState) : Nat :=
  (s.index.map (fun p => (p.2.filter (fun workingCopy => env workingCopy.id)).length)).sum

/-- The index mutation performed by `registerWorkingCopy`: fetch the
resource's set, creating it if absent, and add the copy unless already
present. -/
def regIndex (idx : List (String × List WorkingCopy)) (c : WorkingCopy) : List (String × List WorkingCopy) :=
  match lookupIndex idx c.resource with
  | none => idx ++ [(c.resource, [c])]
  | some workingCopiesForResource =>
      if c ∈ workingCopiesForResource then idx
      else updateKey idx c.resource (workingCopiesForResource ++ [c])

/-- `WorkingCopyService.registerWorkingCopy`: update the index, then install
the dirty-change forwarding listener (this happens on every call, whether or
not the copy was already present).  `h` is the identity of the returned
disposable handle, which owns the listener. -/
def registerWorkingCopy (s : RegistryState) (c : WorkingCopy) (h : Nat) : RegistryState :=
  { index := regIndex s.index c, subs := s.subs ++ [(h, c)] }

/-- The index mutation performed by `unregisterWorkingCopy`: if the copy is in
its resource's set, delete it there, and drop the key when the set becomes
empty. -/
def unregIndex (idx : List (String × List WorkingCopy)) (c : WorkingCopy) : List (String × List WorkingCopy) :=
  match lookupIndex idx c.resource with
  | none => idx
  | some workingCopiesForResource =>
      if c ∈ workingCopiesForResource then
        let remaining := workingCopiesForResource.filter (fun d => !(d == c))
        if remaining.isEmpty then eraseKey idx c.resource
        else updateKey idx c.resource remaining
      else idx

/-- `WorkingCopyService.unregisterWorkingCopy`: remove the copy from the
registry, then, if the copy reports dirty, fire one registry-level
dirty-change event carrying it.  The second component is the list of
payloads fired on `_onDidChangeDirty`. -/
def unregisterWorkingCopy (env : Nat → Bool) (s : RegistryState) (c : WorkingCopy) :
    RegistryState × List WorkingCopy :=
  ({ s with index := unregIndex s.index c }, if env c.id then [c] else [])

/-- Disposing the handle returned by `registerWorkingCopy`: call
`unregisterWorkingCopy`, then dispose the handle's `DisposableStore`, which
removes the forwarding listener owned by handle `h`. -/
def disposeHandle (env : Nat → Bool) (s : RegistryState) (c : WorkingCopy) (h : Nat) :
    RegistryState × List WorkingCopy :=
  let unregistered := unregisterWorkingCopy env s c
  ({ unregistered.1 with subs := unregistered.1.subs.filter (fun p => !(p.1 == h)) },
   unregistered.2)

/-- The forwarding listeners currently installed for a copy. -/
def subsFor (s : RegistryState) (c : WorkingCopy) : List (Nat × WorkingCopy) :=
  s.subs.filter (fun p => p.2 == c)

/-- One dirty/clean transition of copy `c`: its own `onDidChangeDirty`
emitter fires once, and every installed forwarding listener for `c` fires
the registry-level event once.  Returns the registry-level payloads in
delivery order. -/
def fireDirtyChange (s : RegistryState) (c : WorkingCopy) : List WorkingCopy :=
  (subsFor s c).map Prod.snd

/-- A register/unregister operation against the service.  `dispose c h`
is the disposal of the handle `h` obtained from registering `c`.  The
index and listener mutations of both operations do not depend on the
copies' current dirty flags, so operation sequences need no environment. -/
inductive RegOp where
  | register (c : WorkingCopy) (h : Nat)
  | dispose (c : WorkingCopy) (h : Nat)
deriving DecidableEq, Repr

/-- Apply one operation to the registry state (events discarded: they do not
feed back into the state). -/
def applyOp (s : RegistryState) : RegOp → RegistryState
  | .register c h => registerWorkingCopy s c h
  | .dispose c h => (disposeHandle (fun _ => false) s c h).1

/-- Run a sequence of operations from a given state. -/
def runOpsFrom (s : RegistryState) (ops : List RegOp) : RegistryState :=
  ops.foldl applyOp s

/-- Run a sequence of operations on the freshly constructed service. -/
def runOps (ops : List RegOp) : RegistryState :=
  runOpsFrom emptyRegistry ops

/-- Modelled from the spec: the working-copy capability bit-set declares,
among others, a "supports auto-save" capability (`WorkingCopyCapabilities`
is referenced by the tracker but its declaration is outside this excerpt).
`AutoSave` is one fixed bit of the set. -/
def WorkingCopyCapabilities.AutoSave : Nat := 2

/-- Modelled from the spec: the document-save-policy provider is "queried
for is auto-save set to short-delay"; `AutoSaveMode` enumerates the
possible answers of `ITextFileService.getAutoSaveMode()` (declared outside
this excerpt). -/
inductive AutoSaveMode where
  | OFF
  | AFTER_SHORT_DELAY
  | AFTER_LONG_DELAY
  | ON_FOCUS_CHANGE
  | ON_WINDOW_CHANGE
deriving DecidableEq, Repr

/-- The `NumberBadge` handed to the activity service: a number and a label
formatter that the badge host applies to that number when rendering. -/
structure NumberBadge where
  number : Nat
  getBadge : Nat → String

/-- The label the badge host renders for a `NumberBadge`. -/
def NumberBadge.renderedLabel (b : NumberBadge) : String :=
  b.getBadge b.number

/-- The mutable state of `DirtyFilesTracker`: the last dirty count it
computed (`undefined` until first computed) and the currently shown
activity badge (`badgeHandle`; `none` when cleared). -/
structure TrackerState where
  lastKnownDirtyCount : Option Nat
  badge : Option NumberBadge

/-- `DirtyFilesTracker.hasDirtyCount`: a dirty count is known and positive. -/
def TrackerState.hasDirtyCount (t : TrackerState) : Bool :=
  match t.lastKnownDirtyCount with
  | some n => n > 0
  | none => false

/-- `DirtyFilesTracker.updateActivityBadge`: read `dirtyCount` from the
working-copy service, remember it, and show a number badge when it is
positive (the formatter pluralizes: "1 unsaved file" for 1, otherwise the
captured count followed by " unsaved files"), clearing the badge handle
otherwise. -/
def updateActivityBadge (env : Nat → Bool) (s : RegistryState) (_t : TrackerState) : TrackerState :=
  let dirtyCount := s.dirtyCount env
  if dirtyCount > 0 then
    { lastKnownDirtyCount := some dirtyCount,
      badge := some
        { number := dirtyCount,
          getBadge := fun num =>
            if num = 1 then "1 unsaved file"
            else toString dirtyCount ++ " unsaved files" } }
  else
    { lastKnownDirtyCount := some dirtyCount, badge := none }

/-- `DirtyFilesTracker.onWorkingCopyDidChangeDirty`: suppress entirely when
the copy declares the auto-save capability and the save policy queried at
that moment is auto-save after short delay; otherwise recompute the badge
when the copy just became dirty or a positive count is currently known. -/
def onWorkingCopyDidChangeDirty (env : Nat → Bool) (mode : AutoSaveMode)
    (s : RegistryState) (t : TrackerState) (c : WorkingCopy) : TrackerState :=
  if c.capabilities &&& WorkingCopyCapabilities.AutoSave ≠ 0 ∧ mode = AutoSaveMode.AFTER_SHORT_DELAY then
    t
  else
    let gotDirty := env c.id
    if gotDirty || t.hasDirtyCount then updateActivityBadge env s t else t

/-- Modelled from the spec: the text-document subsystem's per-file model
(`ITextFileService.models.get`, declared outside this excerpt) answers
`isDirty()` and `hasState(ModelState.PENDING_SAVE)`. -/
structure TextFileModel where
  isDirty : Bool
  pendingSave : Bool

/-- Modelled from the spec: the collaborators consulted by the tracker's
file-level dirty handler — the text-file model registry keyed by the
resource's string form, and the editor host's "is this resource open"
query. -/
structure EditorEnv where
  models : String → Option TextFileModel
  isOpen : String → Bool

/-- `arrays.distinct` with the resource's string form as key: keep the first
occurrence of each element. -/
def distinctResources : List String → List String
  | [] => []
  | r :: rest => r :: (distinctResources rest).filter (fun x => !(x == r))

/-- `DirtyFilesTracker.doOpenDirtyResources`: options attached to each
background-open request. -/
structure EditorOpenOptions where
  inactive : Bool
  pinned : Bool
  preserveFocus : Bool
deriving DecidableEq, Repr

/-- `DirtyFilesTracker.doOpenDirtyResources`: ask the editor host to open
every listed resource with `inactive`, `pinned` and `preserveFocus` set. -/
def doOpenDirtyResources (resources : List String) : List (String × EditorOpenOptions) :=
  resources.map (fun resource =>
    (resource, { inactive := true, pinned := true, preserveFocus := true }))

/-- `DirtyFilesTracker.onTextFilesDirty`: from the batch of dirty events
(modelled by the string forms of their resources), keep those whose text
file model exists, is dirty and is not in the pending-save state, and which
are not already open in an editor; deduplicate by the resource's string
form; open the result in the background. -/
def onTextFilesDirty (env : EditorEnv) (e : List String) : List (String × EditorOpenOptions) :=
  doOpenDirtyResources (distinctResources (e.filter (fun resource =>
    (match env.models resource with
     | some model => model.isDirty && !model.pendingSave
     | none => false)
    && !(env.isOpen resource))))

/-!
Well-formedness of the resource index, and how each operation preserves it.
-/

/-- Invariant of the resource index maintained by the service: keys are
unique (the search tree is a map), every stored set is non-empty,
duplicate-free, and holds only copies whose resource is its key. -/
structure IndexWF (idx : List (String × List WorkingCopy)) : Prop where
  keysNodup : (idx.map Prod.fst).Nodup
  valsNonempty : ∀ p ∈ idx, p.2 ≠ []
  valsNodup : ∀ p ∈ idx, p.2.Nodup
  resMatch : ∀ p ∈ idx, ∀ c ∈ p.2, c.resource = p.1

theorem IndexWF.tail {p : String × List WorkingCopy} {rest : List (String × List WorkingCopy)}
    (h : IndexWF (p :: rest)) : IndexWF rest := by
  refine ⟨?_, ?_, ?_, ?_⟩
  · exact (List.nodup_cons.mp h.keysNodup).2
  · exact fun q hq => h.valsNonempty q (List.mem_cons_of_mem _ hq)
  · exact fun q hq => h.valsNodup q (List.mem_cons_of_mem _ hq)
  · exact fun q hq => h.resMatch q (List.mem_cons_of_mem _ hq)

theorem lookupIndex_eq_none {idx : List (String × List WorkingCopy)} {r : String} :
    lookupIndex idx r = none ↔ ∀ p ∈ idx, p.1 ≠ r := by
  induction idx with
  | nil => simp [lookupIndex]
  | cons p rest ih =>
      by_cases hp : p.1 = r
      · simp [lookupIndex, hp]
      · simp [lookupIndex, hp, ih]

theorem mem_of_lookupIndex {idx : List (String × List WorkingCopy)} {r : String}
    {l : List WorkingCopy} (h : lookupIndex idx r = some l) : (r, l) ∈ idx := by
  induction idx with
  | nil => simp [lookupIndex] at h
  | cons p rest ih =>
      obtain ⟨a, b⟩ := p
      by_cases hp : a = r
      · subst hp
        simp only [lookupIndex, if_pos] at h
        injection h with h
        subst h
        exact List.mem_cons_self _ _
      · simp only [lookupIndex, hp, ite_false] at h
        exact List.mem_cons_of_mem _ (ih h)

theorem lookupIndex_self {idx : List (String × List WorkingCopy)}
    (hk : (idx.map Prod.fst).Nodup) {q : String × List WorkingCopy} (hq : q ∈ idx) :
    lookupIndex idx q.1 = some q.2 := by
  induction idx with
  | nil => simp at hq
  | cons p rest ih =>
      rcases List.mem_cons.mp hq with h | h
      · subst h
        simp [lookupIndex]
      · have hp : p.1 ≠ q.1 := by
          intro he
          have : p.1 ∈ rest.map Prod.fst := he ▸ List.mem_map_of_mem Prod.fst h
          exact (List.nodup_cons.mp hk).1 this
        simp only [lookupIndex, hp, ite_false]
        exact ih (List.nodup_cons.mp hk).2 h

theorem lookupIndex_append {idx idx' : List (String × List WorkingCopy)} {r : String} :
    lookupIndex (idx ++ idx') r =
      match lookupIndex idx r with
      | some l => some l
      | none => lookupIndex idx' r := by
  induction idx with
  | nil => simp [lookupIndex]
  | cons p rest ih =>
      by_cases hp : p.1 = r
      · simp [lookupIndex, hp]
      · simp [lookupIndex, hp, ih]

theorem lookupIndex_updateKey_self {idx : List (String × List WorkingCopy)} {r : String}
    {l v : List WorkingCopy} (h : lookupIndex idx r = some l) :
    lookupIndex (updateKey idx r v) r = some v := by
  induction idx with
  | nil => simp [lookupIndex] at h
  | cons p rest ih =>
      by_cases hp : p.1 = r
      · simp [updateKey, lookupIndex, hp]
      · simp only [lookupIndex, hp, ite_false] at h
        simp [updateKey, lookupIndex, hp, ih h]

theorem mem_updateKey_self {idx : List (String × List WorkingCopy)} {r : String}
    {l v : List WorkingCopy} (h : lookupIndex idx r = some l) :
    (r, v) ∈ updateKey idx r v := by
  induction idx with
  | nil => simp [lookupIndex] at h
  | cons p rest ih =>
      by_cases hp : p.1 = r
      · simp [updateKey, hp]
      · simp only [lookupIndex, hp, ite_false] at h
        simp only [updateKey, hp, ite_false]
        exact List.mem_cons_of_mem _ (ih h)

theorem keys_updateKey {idx : List (String × List WorkingCopy)} {r : String}
    {v : List WorkingCopy} :
    (updateKey idx r v).map Prod.fst = idx.map Prod.fst := by
  induction idx with
  | nil => simp [updateKey]
  | cons p rest ih =>
      by_cases hp : p.1 = r
      · simp [updateKey, hp]
      · simp [updateKey, hp, ih]

theorem mem_updateKey_strong {idx : List (String × List WorkingCopy)} {r : String}
    {v : List WorkingCopy} (hk : (idx.map Prod.fst).Nodup)
    {q : String × List WorkingCopy} (hq : q ∈ updateKey idx r v) :
    q = (r, v) ∨ (q ∈ idx ∧ q.1 ≠ r) := by
  induction idx with
  | nil => simp [updateKey] at hq
  | cons p rest ih =>
      by_cases hp : p.1 = r
      · simp only [updateKey, hp, if_pos] at hq
        rcases List.mem_cons.mp hq with h | h
        · exact Or.inl h
        · right
          refine ⟨List.mem_cons_of_mem _ h, ?_⟩
          intro he
          have : p.1 ∈ rest.map Prod.fst := by
            rw [hp, ← he]
            exact List.mem_map_of_mem Prod.fst h
          exact (List.nodup_cons.mp hk).1 this
      · simp only [updateKey, hp, ite_false] at hq
        rcases List.mem_cons.mp hq with h | h
        · subst h
          exact Or.inr ⟨List.mem_cons_self _ _, hp⟩
        · rcases ih (List.nodup_cons.mp hk).2 h with h' | ⟨h1, h2⟩
          · exact Or.inl h'
          · exact Or.inr ⟨List.mem_cons_of_mem _ h1, h2⟩

theorem eraseKey_sublist {idx : List (String × List WorkingCopy)} {r : String} :
    (eraseKey idx r).Sublist idx := by
  induction idx with
  | nil => simp [eraseKey]
  | cons p rest ih =>
      by_cases hp : p.1 = r
      · simp only [eraseKey, hp, if_pos]
        exact List.sublist_cons_self _ _
      · simp only [eraseKey, hp, ite_false]
        exact ih.cons₂ p

theorem keys_eraseKey_ne {idx : List (String × List WorkingCopy)} {r : String}
    (hk : (idx.map Prod.fst).Nodup) {q : String × List WorkingCopy}
    (hq : q ∈ eraseKey idx r) : q.1 ≠ r := by
  induction idx with
  | nil => simp [eraseKey] at hq
  | cons p rest ih =>
      by_cases hp : p.1 = r
      · simp only [eraseKey, hp, if_pos] at hq
        intro he
        have : p.1 ∈ rest.map Prod.fst := by
          rw [hp, ← he]
          exact List.mem_map_of_mem Prod.fst hq
        exact (List.nodup_cons.mp hk).1 this
      · simp only [eraseKey, hp, ite_false] at hq
        rcases List.mem_cons.mp hq with h | h
        · subst h
          exact hp
        · exact ih (List.nodup_cons.mp hk).2 h

theorem copiesOf_nil : copiesOf [] = [] := rfl

theorem copiesOf_cons {p : String × List WorkingCopy} {rest : List (String × List WorkingCopy)} :
    copiesOf (p :: rest) = p.2 ++ copiesOf rest := by
  simp [copiesOf]

theorem copiesOf_append {idx idx' : List (String × List WorkingCopy)} :
    copiesOf (idx ++ idx') = copiesOf idx ++ copiesOf idx' := by
  simp [copiesOf]

theorem mem_copiesOf {idx : List (String × List WorkingCopy)} {c : WorkingCopy} :
    c ∈ copiesOf idx ↔ ∃ p ∈ idx, c ∈ p.2 := by
  simp only [copiesOf, List.mem_flatten, List.mem_map]
  constructor
  · rintro ⟨l, ⟨p, hp, rfl⟩, hc⟩
    exact ⟨p, hp, hc⟩
  · rintro ⟨p, hp, hc⟩
    exact ⟨p.2, ⟨p, hp, rfl⟩, hc⟩

theorem resource_of_mem {idx : List (String × List WorkingCopy)} (wf : IndexWF idx)
    {c : WorkingCopy} (hc : c ∈ copiesOf idx) :
    ∃ l, lookupIndex idx c.resource = some l ∧ c ∈ l := by
  obtain ⟨p, hp, hcp⟩ := mem_copiesOf.mp hc
  have hres : c.resource = p.1 := wf.resMatch p hp c hcp
  have : lookupIndex idx p.1 = some p.2 := lookupIndex_self wf.keysNodup hp
  exact ⟨p.2, by rw [hres]; exact this, hcp⟩

theorem not_mem_copiesOf_of_lookup_none {idx : List (String × List WorkingCopy)}
    (wf : IndexWF idx) {c : WorkingCopy}
    (h : lookupIndex idx c.resource = none) : c ∉ copiesOf idx := by
  intro hc
  obtain ⟨l, hl, _⟩ := resource_of_mem wf hc
  rw [hl] at h
  cases h

theorem not_mem_copiesOf_of_not_mem_lookup {idx : List (String × List WorkingCopy)}
    (wf : IndexWF idx) {c : WorkingCopy} {l : List WorkingCopy}
    (h : lookupIndex idx c.resource = some l) (hc : c ∉ l) : c ∉ copiesOf idx := by
  intro hmem
  obtain ⟨l', hl', hcl'⟩ := resource_of_mem wf hmem
  rw [hl'] at h
  injection h with h
  exact hc (h ▸ hcl')

theorem IndexWF_regIndex {idx : List (String × List WorkingCopy)} (wf : IndexWF idx)
    (c : WorkingCopy) : IndexWF (regIndex idx c) := by
  unfold regIndex
  cases hl : lookupIndex idx c.resource with
  | none =>
      refine ⟨?_, ?_, ?_, ?_⟩
      · rw [List.map_append, List.nodup_append]
        refine ⟨wf.keysNodup, by simp, ?_⟩
        intro a ha hb
        simp only [List.map_cons, List.map_nil, List.mem_cons, List.not_mem_nil, or_false] at hb
        obtain ⟨p, hp, rfl⟩ := List.mem_map.mp ha
        exact lookupIndex_eq_none.mp hl p hp hb
      · intro q hq
        rcases List.mem_append.mp hq with h | h
        · exact wf.valsNonempty q h
        · simp only [List.mem_singleton] at h
          subst h
          simp
      · intro q hq
        rcases List.mem_append.mp hq with h | h
        · exact wf.valsNodup q h
        · simp only [List.mem_singleton] at h
          subst h
          simp
      · intro q hq d hd
        rcases List.mem_append.mp hq with h | h
        · exact wf.resMatch q h d hd
        · simp only [List.mem_singleton] at h
          subst h
          simp only [List.mem_singleton] at hd
          subst hd
          rfl
  | some l =>
      by_cases hc : c ∈ l
      · simp only [hc, if_pos]
        exact wf
      · simp only [hc, ite_false]
        have hmem : (c.resource, l) ∈ idx := mem_of_lookupIndex hl
        refine ⟨?_, ?_, ?_, ?_⟩
        · rw [keys_updateKey]
          exact wf.keysNodup
        · intro q hq
          rcases mem_updateKey_strong wf.keysNodup hq with rfl | ⟨h1, _⟩
          · simp
          · exact wf.valsNonempty q h1
        · intro q hq
          rcases mem_updateKey_strong wf.keysNodup hq with rfl | ⟨h1, _⟩
          · simp only [List.nodup_append, List.nodup_cons, List.nodup_nil]
            exact ⟨wf.valsNodup _ hmem, by simp, by simpa using hc⟩
          · exact wf.valsNodup q h1
        · intro q hq d hd
          rcases mem_updateKey_strong wf.keysNodup hq with rfl | ⟨h1, _⟩
          · rcases List.mem_append.mp hd with h | h
            · exact wf.resMatch _ hmem d h
            · simp only [List.mem_singleton] at h
              subst h
              rfl
          · exact wf.resMatch q h1 d hd

theorem IndexWF_unregIndex {idx : List (String × List WorkingCopy)} (wf : IndexWF idx)
    (c : WorkingCopy) : IndexWF (unregIndex idx c) := by
  unfold unregIndex
  cases hl : lookupIndex idx c.resource with
  | none => exact wf
  | some l =>
      by_cases hc : c ∈ l
      · simp only [hc, if_pos]
        by_cases hrem : (l.filter (fun d => !(d == c))).isEmpty
        · rw [if_pos hrem]
          refine ⟨?_, ?_, ?_, ?_⟩
          · exact wf.keysNodup.sublist (eraseKey_sublist.map Prod.fst)
          · exact fun q hq => wf.valsNonempty q (eraseKey_sublist.mem hq)
          · exact fun q hq => wf.valsNodup q (eraseKey_sublist.mem hq)
          · exact fun q hq => wf.resMatch q (eraseKey_sublist.mem hq)
        · rw [if_neg hrem]
          refine ⟨?_, ?_, ?_, ?_⟩
          · rw [keys_updateKey]
            exact wf.keysNodup
          · intro q hq
            rcases mem_updateKey_strong wf.keysNodup hq with rfl | ⟨h1, _⟩
            · simpa [List.isEmpty_iff] using hrem
            · exact wf.valsNonempty q h1
          · intro q hq
            rcases mem_updateKey_strong wf.keysNodup hq with rfl | ⟨h1, _⟩
            · exact (wf.valsNodup _ (mem_of_lookupIndex hl)).filter _
            · exact wf.valsNodup q h1
          · intro q hq d hd
            rcases mem_updateKey_strong wf.keysNodup hq with rfl | ⟨h1, _⟩
            · exact wf.resMatch _ (mem_of_lookupIndex hl) d (List.mem_of_mem_filter hd)
            · exact wf.resMatch q h1 d hd
      · simp only [hc, ite_false]
        exact wf

theorem any_congr_mem {α : Type} {l : List α} {p q : α → Bool}
    (h : ∀ a ∈ l, p a = q a) : l.any p = l.any q := by
  induction l with
  | nil => rfl
  | cons a l ih =>
      simp only [List.any_cons, h a (List.mem_cons_self a l),
        ih (fun b hb => h b (List.mem_cons_of_mem _ hb))]

theorem copiesOf_nodup {idx : List (String × List WorkingCopy)} (wf : IndexWF idx) :
    (copiesOf idx).Nodup := by
  induction idx with
  | nil => simp [copiesOf]
  | cons p rest ih =>
      rw [copiesOf_cons, List.nodup_append]
      refine ⟨wf.valsNodup p (List.mem_cons_self _ _), ih wf.tail, ?_⟩
      intro d hd hd'
      obtain ⟨q, hq, hdq⟩ := mem_copiesOf.mp hd'
      have h1 : d.resource = p.1 := wf.resMatch p (List.mem_cons_self _ _) d hd
      have h2 : d.resource = q.1 := wf.resMatch q (List.mem_cons_of_mem _ hq) d hdq
      have hkey : p.1 = q.1 := by rw [← h1, h2]
      have : p.1 ∈ rest.map Prod.fst := hkey ▸ List.mem_map_of_mem Prod.fst hq
      exact (List.nodup_cons.mp wf.keysNodup).1 this

theorem not_mem_copiesOf_unregIndex {idx : List (String × List WorkingCopy)}
    (wf : IndexWF idx) (c : WorkingCopy) : c ∉ copiesOf (unregIndex idx c) := by
  unfold unregIndex
  cases hl : lookupIndex idx c.resource with
  | none => exact not_mem_copiesOf_of_lookup_none wf hl
  | some l =>
      by_cases hc : c ∈ l
      · simp only [hc, if_pos]
        by_cases hrem : (l.filter (fun d => !(d == c))).isEmpty
        · rw [if_pos hrem]
          intro hmem
          obtain ⟨q, hq, hcq⟩ := mem_copiesOf.mp hmem
          have hne := keys_eraseKey_ne wf.keysNodup hq
          have hres := wf.resMatch q (eraseKey_sublist.mem hq) c hcq
          exact hne hres.symm
        · rw [if_neg hrem]
          intro hmem
          obtain ⟨q, hq, hcq⟩ := mem_copiesOf.mp hmem
          rcases mem_updateKey_strong wf.keysNodup hq with rfl | ⟨h1, h2⟩
          · simp at hcq
          · exact h2 (wf.resMatch q h1 c hcq).symm
      · simp only [hc, ite_false]
        exact not_mem_copiesOf_of_not_mem_lookup wf hl hc

theorem mem_copiesOf_regIndex_self {idx : List (String × List WorkingCopy)}
    (c : WorkingCopy) : c ∈ copiesOf (regIndex idx c) := by
  unfold regIndex
  cases hl : lookupIndex idx c.resource with
  | none =>
      rw [copiesOf_append]
      simp [copiesOf]
  | some l =>
      by_cases hc : c ∈ l
      · simp only [hc, if_pos]
        exact mem_copiesOf.mpr ⟨(c.resource, l), mem_of_lookupIndex hl, hc⟩
      · simp only [hc, ite_false]
        exact mem_copiesOf.mpr ⟨(c.resource, l ++ [c]), mem_updateKey_self hl, by simp⟩

theorem lookupIndex_regIndex_self {idx : List (String × List WorkingCopy)}
    (c : WorkingCopy) :
    ∃ l, lookupIndex (regIndex idx c) c.resource = some l ∧ c ∈ l := by
  unfold regIndex
  cases hl : lookupIndex idx c.resource with
  | none =>
      refine ⟨[c], ?_, by simp⟩
      rw [lookupIndex_append, hl]
      simp [lookupIndex]
  | some l =>
      by_cases hc : c ∈ l
      · exact ⟨l, by simp [hc, hl], hc⟩
      · refine ⟨l ++ [c], ?_, by simp⟩
        simp only [hc, ite_false]
        exact lookupIndex_updateKey_self hl

theorem regIndex_of_mem_lookup {idx : List (String × List WorkingCopy)}
    {c : WorkingCopy} {l : List WorkingCopy}
    (hl : lookupIndex idx c.resource = some l) (hc : c ∈ l) : regIndex idx c = idx := by
  unfold regIndex
  rw [hl]
  simp [hc]

theorem regIndex_regIndex {idx : List (String × List WorkingCopy)} (c : WorkingCopy) :
    regIndex (regIndex idx c) c = regIndex idx c := by
  obtain ⟨l, hl, hc⟩ := @lookupIndex_regIndex_self idx c
  exact regIndex_of_mem_lookup hl hc

theorem dirtyCount_copiesOf (f : WorkingCopy → Bool) (idx : List (String × List WorkingCopy)) :
    (idx.map (fun p => (p.2.filter f).length)).sum = ((copiesOf idx).filter f).length := by
  induction idx with
  | nil => simp [copiesOf]
  | cons p rest ih =>
      simp [copiesOf_cons, List.filter_append, ih]

theorem lookup_any_eq_copies_any {idx : List (String × List WorkingCopy)}
    (wf : IndexWF idx) (r : String) (f : WorkingCopy → Bool) :
    (match lookupIndex idx r with
     | some l => l.any f
     | none => false) = (copiesOf idx).any (fun c => (c.resource == r) && f c) := by
  induction idx with
  | nil => simp [lookupIndex, copiesOf]
  | cons p rest ih =>
      rw [copiesOf_cons, List.any_append]
      by_cases hp : p.1 = r
      · simp only [lookupIndex, hp, if_pos]
        have h1 : p.2.any (fun c => (c.resource == r) && f c) = p.2.any f := by
          apply any_congr_mem
          intro d hd
          have := wf.resMatch p (List.mem_cons_self _ _) d hd
          simp [this, hp]
        have h2 : (copiesOf rest).any (fun c => (c.resource == r) && f c) = false := by
          apply List.any_eq_false.mpr
          intro d hd
          obtain ⟨q, hq, hdq⟩ := mem_copiesOf.mp hd
          have hres : d.resource = q.1 := wf.resMatch q (List.mem_cons_of_mem _ hq) d hdq
          have hqr : q.1 ≠ r := by
            intro he
            have : p.1 ∈ rest.map Prod.fst := by
              rw [hp, ← he]
              exact List.mem_map_of_mem Prod.fst hq
            exact (List.nodup_cons.mp wf.keysNodup).1 this
          simp [hres, hqr]
        rw [h1, h2, Bool.or_false]
      · simp only [lookupIndex, hp, ite_false]
        have h2 : p.2.any (fun c => (c.resource == r) && f c) = false := by
          apply List.any_eq_false.mpr
          intro d hd
          have := wf.resMatch p (List.mem_cons_self _ _) d hd
          simp [this, hp]
        rw [h2, Bool.false_or, ih wf.tail]

theorem lookup_isSome_eq_any {idx : List (String × List WorkingCopy)}
    (wf : IndexWF idx) (r : String) :
    (lookupIndex idx r).isSome = (copiesOf idx).any (fun c => c.resource == r) := by
  induction idx with
  | nil => simp [lookupIndex, copiesOf]
  | cons p rest ih =>
      rw [copiesOf_cons, List.any_append]
      by_cases hp : p.1 = r
      · simp only [lookupIndex, hp, if_pos, Option.isSome_some]
        have hne := wf.valsNonempty p (List.mem_cons_self _ _)
        obtain ⟨d, hd⟩ := List.exists_mem_of_ne_nil _ hne
        have h1 : (p.2.any fun c => c.resource == r) = true := by
          refine List.any_eq_true.mpr ⟨d, hd, ?_⟩
          have := wf.resMatch p (List.mem_cons_self _ _) d hd
          simp [this, hp]
        simp [h1]
      · simp only [lookupIndex, hp, ite_false]
        have h2 : (p.2.any fun c => c.resource == r) = false := by
          apply List.any_eq_false.mpr
          intro d hd
          have := wf.resMatch p (List.mem_cons_self _ _) d hd
          simp [this, hp]
        rw [h2, Bool.false_or, ih wf.tail]

theorem lookup_all_nonempty {idx : List (String × List WorkingCopy)}
    (wf : IndexWF idx) (r : String) :
    (lookupIndex idx r).all (fun l => !l.isEmpty) = true := by
  cases hl : lookupIndex idx r with
  | none => rfl
  | some l =>
      have hne := wf.valsNonempty _ (mem_of_lookupIndex hl)
      simpa [Option.all, List.isEmpty_iff] using hne

theorem IndexWF_empty : IndexWF emptyRegistry.index := by
  refine ⟨?_, ?_, ?_, ?_⟩ <;> simp [emptyRegistry]

theorem IndexWF_applyOp {s : RegistryState} (wf : IndexWF s.index) (op : RegOp) :
    IndexWF (applyOp s op).index := by
  cases op with
  | register c h => exact IndexWF_regIndex wf c
  | dispose c h => exact IndexWF_unregIndex wf c

theorem IndexWF_runOpsFrom {s : RegistryState} (wf : IndexWF s.index) (ops : List RegOp) :
    IndexWF (runOpsFrom s ops).index := by
  induction ops generalizing s with
  | nil => exact wf
  | cons op ops ih => exact ih (IndexWF_applyOp wf op)

theorem IndexWF_runOps (ops : List RegOp) : IndexWF (runOps ops).index :=
  IndexWF_runOpsFrom IndexWF_empty ops

/-- Claim C1, counterexample: registering the same copy a second time under
the same resource is not observationally a no-op.  Starting from the fresh
service, registering `c0` twice leaves exactly one entry for `c0` in the
index, but two dirty-change subscriptions are installed, so one subsequent
dirty transition of `c0` causes two registry-level `onDidChangeDirty`
firings, not exactly one. -/
theorem C1_register_twice_counterexample :
    let c0 : WorkingCopy := { id := 0, resource := "file:///f1", capabilities := 0 }
    let s := registerWorkingCopy (registerWorkingCopy emptyRegistry c0 1) c0 2
    (registeredCopies s).count c0 = 1 ∧
      ¬((subsFor s c0).length = 1) ∧
      ¬((fireDirtyChange s c0).length = 1) ∧
      (fireDirtyChange s c0).length = 2 := by
  decide

/-- Claim C1, amended: for a copy with no dirty-change subscription yet,
registering it twice under the same resource is a no-op for the index on
the second call — the index is unchanged and contains exactly one entry for
the copy — but each of the two calls installs one dirty-change
subscription, so exactly two subscriptions exist and one subsequent dirty
transition of the copy causes exactly two `onDidChangeDirty` firings. -/
theorem C1_register_twice_amended (ops : List RegOp) (c : WorkingCopy) (h1 h2 : Nat)
    (hsubs : subsFor (runOps ops) c = []) :
    let s := registerWorkingCopy (registerWorkingCopy (runOps ops) c h1) c h2
    s.index = (registerWorkingCopy (runOps ops) c h1).index ∧
      (registeredCopies s).count c = 1 ∧
      (subsFor s c).length = 2 ∧
      (fireDirtyChange s c).length = 2 := by
  have hsubs2 : subsFor (registerWorkingCopy (registerWorkingCopy (runOps ops) c h1) c h2) c
      = [(h1, c), (h2, c)] := by
    simp only [subsFor, registerWorkingCopy] at hsubs ⊢
    simp [List.filter_append, hsubs]
  refine ⟨?_, ?_, ?_, ?_⟩
  · show (registerWorkingCopy (registerWorkingCopy (runOps ops) c h1) c h2).index
        = (registerWorkingCopy (runOps ops) c h1).index
    simp only [registerWorkingCopy]
    exact regIndex_regIndex c
  · show (registeredCopies (registerWorkingCopy (registerWorkingCopy (runOps ops) c h1) c h2)).count c = 1
    have hwf : IndexWF (regIndex (runOps ops).index c) :=
      IndexWF_regIndex (IndexWF_runOps ops) c
    have hmem : c ∈ copiesOf (regIndex (runOps ops).index c) :=
      mem_copiesOf_regIndex_self c
    have hr : registeredCopies (registerWorkingCopy (registerWorkingCopy (runOps ops) c h1) c h2)
        = copiesOf (regIndex (runOps ops).index c) := by
      simp only [registeredCopies, registerWorkingCopy]
      rw [regIndex_regIndex]
    rw [hr]
    exact List.count_eq_one_of_mem (copiesOf_nodup hwf) hmem
  · show (subsFor (registerWorkingCopy (registerWorkingCopy (runOps ops) c h1) c h2) c).length = 2
    rw [hsubs2]
    rfl
  · show (fireDirtyChange (registerWorkingCopy (registerWorkingCopy (runOps ops) c h1) c h2) c).length = 2
    simp only [fireDirtyChange, hsubs2]
    rfl

/-- Claim C1, amended, witness at a concrete input. -/
theorem C1_register_twice_amended_witness :
    subsFor (runOps []) { id := 0, resource := "file:///f1", capabilities := 0 } = [] ∧
    (let s := registerWorkingCopy
        (registerWorkingCopy (runOps []) { id := 0, resource := "file:///f1", capabilities := 0 } 1)
        { id := 0, resource := "file:///f1", capabilities := 0 } 2
     s.index = (registerWorkingCopy (runOps [])
        { id := 0, resource := "file:///f1", capabilities := 0 } 1).index ∧
      (registeredCopies s).count { id := 0, resource := "file:///f1", capabilities := 0 } = 1 ∧
      (subsFor s { id := 0, resource := "file:///f1", capabilities := 0 }).length = 2 ∧
      (fireDirtyChange s { id := 0, resource := "file:///f1", capabilities := 0 }).length = 2) :=
  ⟨by decide, C1_register_twice_amended [] _ 1 2 (by decide)⟩

/-- Claim C2: disposing the registration handle of a currently registered
copy that reports dirty at disposal time fires exactly one registry-level
`onDidChangeDirty` event, carrying exactly that copy, and the same disposal
removes the copy from the index. -/
theorem C2_dispose_dirty_fires_once (ops : List RegOp) (env : Nat → Bool)
    (c : WorkingCopy) (h : Nat)
    (_hreg : c ∈ registeredCopies (runOps ops)) (hdirty : env c.id = true) :
    (disposeHandle env (runOps ops) c h).2 = [c] ∧
      c ∉ registeredCopies (disposeHandle env (runOps ops) c h).1 := by
  constructor
  · simp [disposeHandle, unregisterWorkingCopy, hdirty]
  · have := not_mem_copiesOf_unregIndex (IndexWF_runOps ops) c
    simpa [disposeHandle, unregisterWorkingCopy, registeredCopies] using this

/-- Claim C2, witness at a concrete input. -/
theorem C2_dispose_dirty_fires_once_witness :
    ({ id := 0, resource := "file:///f1", capabilities := 0 } : WorkingCopy)
        ∈ registeredCopies (runOps
            [RegOp.register { id := 0, resource := "file:///f1", capabilities := 0 } 1]) ∧
    (fun _ => true) ({ id := 0, resource := "file:///f1", capabilities := 0 } : WorkingCopy).id = true ∧
    ((disposeHandle (fun _ => true)
        (runOps [RegOp.register { id := 0, resource := "file:///f1", capabilities := 0 } 1])
        { id := 0, resource := "file:///f1", capabilities := 0 } 1).2
      = [{ id := 0, resource := "file:///f1", capabilities := 0 }] ∧
    ({ id := 0, resource := "file:///f1", capabilities := 0 } : WorkingCopy)
        ∉ registeredCopies (disposeHandle (fun _ => true)
            (runOps [RegOp.register { id := 0, resource := "file:///f1", capabilities := 0 } 1])
            { id := 0, resource := "file:///f1", capabilities := 0 } 1).1) :=
  ⟨by decide, by decide, C2_dispose_dirty_fires_once _ _ _ _ (by decide) (by decide)⟩

/-- Claim C3: after every sequence of register/unregister operations,
`isDirty(resource)` returns true exactly when some currently registered
working copy under that resource reports dirty (so in particular it is
false when no copy is registered under the resource); the query is a pure
function of the state. -/
theorem C3_isDirty_iff_some_dirty (ops : List RegOp) (env : Nat → Bool) (r : String) :
    RegistryState.isDirty env (runOps ops) r
      = (registeredCopies (runOps ops)).any (fun c => (c.resource == r) && env c.id) := by
  have := lookup_any_eq_copies_any (IndexWF_runOps ops) r (fun c => env c.id)
  simpa [RegistryState.isDirty, registeredCopies] using this

/-- Claim C4: after every sequence of register/unregister operations,
`dirtyCount` equals the number of currently registered copies, across all
resource keys, that report dirty — and the registered copies form a
duplicate-free collection, so each copy is counted at most once. -/
theorem C4_dirtyCount_eq_filter_length (ops : List RegOp) (env : Nat → Bool) :
    RegistryState.dirtyCount env (runOps ops)
        = ((registeredCopies (runOps ops)).filter (fun c => env c.id)).length
      ∧ (registeredCopies (runOps ops)).Nodup := by
  constructor
  · have := dirtyCount_copiesOf (fun c => env c.id) (runOps ops).index
    simpa [RegistryState.dirtyCount, registeredCopies] using this
  · exact copiesOf_nodup (IndexWF_runOps ops)

/-- Claim C5: after every sequence of register/unregister operations, a
resource key is present in the index exactly when some currently registered
copy has that resource, and every set stored under a present key is
non-empty (so unregistering the last copy of a resource deletes its key). -/
theorem C5_key_iff_registered (ops : List RegOp) (r : String) :
    (lookupIndex (runOps ops).index r).isSome
        = (registeredCopies (runOps ops)).any (fun c => c.resource == r)
      ∧ (lookupIndex (runOps ops).index r).all (fun l => !l.isEmpty) = true :=
  ⟨lookup_isSome_eq_any (IndexWF_runOps ops) r,
   lookup_all_nonempty (IndexWF_runOps ops) r⟩

/-- Claim C6, counterexample: unregistering a copy that is not registered is
not free of observable effects.  On the fresh service, unregistering the
(never registered) dirty copy `c0` leaves the state unchanged but fires one
registry-level `onDidChangeDirty` event carrying `c0`. -/
theorem C6_unregister_unregistered_counterexample :
    let c0 : WorkingCopy := { id := 0, resource := "file:///f1", capabilities := 0 }
    c0 ∉ registeredCopies emptyRegistry ∧
      (unregisterWorkingCopy (fun _ => true) emptyRegistry c0).1 = emptyRegistry ∧
      (unregisterWorkingCopy (fun _ => true) emptyRegistry c0).2 = [c0] := by
  decide

/-- Claim C6, amended: unregistering a copy that is not currently registered
raises no error (the operation is total) and leaves the registry state
unchanged, but it is not entirely observation-free: if the copy reports
dirty at that moment, one registry-level dirty-change event carrying it is
fired (none is fired when the copy is clean). -/
theorem C6_unregister_unregistered_amended (env : Nat → Bool) (s : RegistryState)
    (c : WorkingCopy) (hnot : c ∉ registeredCopies s) :
    (unregisterWorkingCopy env s c).1 = s ∧
      (unregisterWorkingCopy env s c).2 = (if env c.id then [c] else []) := by
  refine ⟨?_, rfl⟩
  have hidx : unregIndex s.index c = s.index := by
    unfold unregIndex
    cases hl : lookupIndex s.index c.resource with
    | none => rfl
    | some l =>
        have hc : c ∉ l := by
          intro hc
          exact hnot (mem_copiesOf.mpr ⟨(c.resource, l), mem_of_lookupIndex hl, hc⟩)
        simp [hc]
  simp [unregisterWorkingCopy, hidx]

/-- Claim C6, amended, witness at a concrete input. -/
theorem C6_unregister_unregistered_amended_witness :
    (({ id := 0, resource := "file:///f1", capabilities := 0 } : WorkingCopy)
        ∉ registeredCopies emptyRegistry) ∧
    ((unregisterWorkingCopy (fun _ => true) emptyRegistry
        { id := 0, resource := "file:///f1", capabilities := 0 }).1 = emptyRegistry ∧
      (unregisterWorkingCopy (fun _ => true) emptyRegistry
        { id := 0, resource := "file:///f1", capabilities := 0 }).2
        = [{ id := 0, resource := "file:///f1", capabilities := 0 }]) :=
  ⟨by decide, C6_unregister_unregistered_amended _ _ _ (by decide)⟩

/-- Claim C7: when a dirty-change event arrives for a copy that declares the
auto-save capability while the save policy queried at that moment is
auto-save after short delay, the tracker's handler returns without
recomputing: its state — the visible badge and `lastKnownDirtyCount` — is
unchanged, whatever the registry's `dirtyCount` may be. -/
theorem C7_autosave_short_delay_suppresses (env : Nat → Bool) (s : RegistryState)
    (t : TrackerState) (c : WorkingCopy)
    (hcap : c.capabilities &&& WorkingCopyCapabilities.AutoSave ≠ 0) :
    onWorkingCopyDidChangeDirty env AutoSaveMode.AFTER_SHORT_DELAY s t c = t := by
  simp [onWorkingCopyDidChangeDirty, hcap]

/-- Claim C7, witness at a concrete input. -/
theorem C7_autosave_short_delay_suppresses_witness :
    (({ id := 0, resource := "file:///f1", capabilities := 2 } : WorkingCopy).capabilities
        &&& WorkingCopyCapabilities.AutoSave ≠ 0) ∧
    onWorkingCopyDidChangeDirty (fun _ => true) AutoSaveMode.AFTER_SHORT_DELAY
        (registerWorkingCopy emptyRegistry { id := 0, resource := "file:///f1", capabilities := 2 } 1)
        { lastKnownDirtyCount := none, badge := none }
        { id := 0, resource := "file:///f1", capabilities := 2 }
      = { lastKnownDirtyCount := none, badge := none } :=
  ⟨by decide, C7_autosave_short_delay_suppresses _ _ _ _ (by decide)⟩

/-- Claim C8: every recomputation reads `dirtyCount` from the registry and
stores it in `lastKnownDirtyCount`; when the count is zero the visible
badge is cleared, and when it is positive a badge is shown whose number is
the count and whose rendered label is "1 unsaved file" when the count is 1
and the count followed by " unsaved files" otherwise. -/
theorem C8_badge_recompute (env : Nat → Bool) (s : RegistryState) (t : TrackerState) :
    (updateActivityBadge env s t).lastKnownDirtyCount
        = some (RegistryState.dirtyCount env s)
      ∧ (updateActivityBadge env s t).badge.map (fun b => (b.number, b.renderedLabel))
        = (if RegistryState.dirtyCount env s = 0 then none
           else some (RegistryState.dirtyCount env s,
              if RegistryState.dirtyCount env s = 1 then "1 unsaved file"
              else toString (RegistryState.dirtyCount env s) ++ " unsaved files")) := by
  unfold updateActivityBadge
  by_cases h0 : RegistryState.dirtyCount env s = 0
  · simp [h0, NumberBadge.renderedLabel]
  · have hpos : 0 < RegistryState.dirtyCount env s := Nat.pos_of_ne_zero h0
    simp [hpos, h0, NumberBadge.renderedLabel]

theorem mem_distinctResources {l : List String} {r : String} :
    r ∈ distinctResources l ↔ r ∈ l := by
  induction l with
  | nil => simp [distinctResources]
  | cons a l ih =>
      simp only [distinctResources, List.mem_cons, List.mem_filter, ih, Bool.not_eq_true',
        beq_eq_false_iff_ne, ne_eq]
      constructor
      · rintro (rfl | ⟨h1, _⟩)
        · exact Or.inl rfl
        · exact Or.inr h1
      · rintro (rfl | h)
        · exact Or.inl rfl
        · by_cases hr : r = a
          · exact Or.inl hr
          · exact Or.inr ⟨h, hr⟩

theorem distinctResources_nodup (l : List String) : (distinctResources l).Nodup := by
  induction l with
  | nil => simp [distinctResources]
  | cons a l ih =>
      simp only [distinctResources, List.nodup_cons]
      refine ⟨?_, ih.filter _⟩
      intro hmem
      have := List.of_mem_filter hmem
      simp at this

/-- Claim C9: on a batch of file-level dirty notifications, the tracker asks
the editor host to open exactly those notified resources that currently
have a dirty text-file model not in the pending-save state and that are not
already open in an editor, deduplicated by the resource's string form, and
every open request carries the options inactive, pinned and
preserve-focus. -/
theorem C9_opens_exactly_eligible (env : EditorEnv) (e : List String) :
    ((onTextFilesDirty env e).map Prod.snd).all
        (fun o => o == { inactive := true, pinned := true, preserveFocus := true }) = true
      ∧ ((onTextFilesDirty env e).map Prod.fst).Nodup
      ∧ ∀ r : String, r ∈ (onTextFilesDirty env e).map Prod.fst ↔
          (r ∈ e
            ∧ (∃ m, env.models r = some m ∧ m.isDirty = true ∧ m.pendingSave = false)
            ∧ env.isOpen r = false) := by
  have hfst : (onTextFilesDirty env e).map Prod.fst
      = distinctResources (e.filter (fun resource =>
          (match env.models resource with
           | some model => model.isDirty && !model.pendingSave
           | none => false)
          && !(env.isOpen resource))) := by
    simp only [onTextFilesDirty, doOpenDirtyResources, List.map_map]
    exact List.map_id _
  refine ⟨?_, ?_, ?_⟩
  · simp [onTextFilesDirty, doOpenDirtyResources, List.map_map, Function.comp,
      List.all_eq_true]
  · rw [hfst]
    exact distinctResources_nodup _
  · intro r
    rw [hfst, mem_distinctResources, List.mem_filter]
    constructor
    · rintro ⟨hre, hcond⟩
      refine ⟨hre, ?_⟩
      cases hm : env.models r with
      | none => rw [hm] at hcond; simp at hcond
      | some m =>
          rw [hm] at hcond
          simp only [Bool.and_eq_true, Bool.not_eq_true'] at hcond
          exact ⟨⟨m, rfl, hcond.1.1, hcond.1.2⟩, hcond.2⟩
    · rintro ⟨hre, ⟨m, hm, hd, hp⟩, hopen⟩
      refine ⟨hre, ?_⟩
      rw [hm]
      simp [hd, hp, hopen]

/-- Claim C10: registration is not reference-counted.  Registering the same
copy twice under the same resource and disposing either one of the two
handles removes the copy from the index entirely — `isDirty` on its
resource and `dirtyCount` then range over a registered collection that no
longer contains the copy — while the other handle's dirty-change
subscription remains installed. -/
theorem C10_dispose_either_handle_removes (ops : List RegOp) (env : Nat → Bool)
    (c : WorkingCopy) (h1 h2 : Nat)
    (hsubs : subsFor (runOps ops) c = []) (hne : h1 ≠ h2) :
    let s := registerWorkingCopy (registerWorkingCopy (runOps ops) c h1) c h2
    (c ∉ registeredCopies (disposeHandle env s c h1).1
      ∧ subsFor (disposeHandle env s c h1).1 c = [(h2, c)]
      ∧ RegistryState.isDirty env (disposeHandle env s c h1).1 c.resource
          = ((registeredCopies (disposeHandle env s c h1).1).any
              (fun d => (d.resource == c.resource) && env d.id))
      ∧ RegistryState.dirtyCount env (disposeHandle env s c h1).1
          = ((registeredCopies (disposeHandle env s c h1).1).filter
              (fun d => env d.id)).length)
    ∧ (c ∉ registeredCopies (disposeHandle env s c h2).1
      ∧ subsFor (disposeHandle env s c h2).1 c = [(h1, c)]) := by
  have hwfs : IndexWF (regIndex (regIndex (runOps ops).index c) c) :=
    IndexWF_regIndex (IndexWF_regIndex (IndexWF_runOps ops) c) c
  have hwfd : IndexWF (unregIndex (regIndex (regIndex (runOps ops).index c) c) c) :=
    IndexWF_unregIndex hwfs c
  have hsubs' : (runOps ops).subs.filter (fun p => p.2 == c) = [] := hsubs
  have hb21 : ((h2 : Nat) == h1) = false := beq_eq_false_iff_ne.mpr (Ne.symm hne)
  have hb12 : ((h1 : Nat) == h2) = false := beq_eq_false_iff_ne.mpr hne
  refine ⟨⟨?_, ?_, ?_, ?_⟩, ?_, ?_⟩
  · exact not_mem_copiesOf_unregIndex hwfs c
  · show ((((runOps ops).subs ++ [(h1, c)]) ++ [(h2, c)]).filter
        (fun p => !(p.1 == h1))).filter (fun p => p.2 == c) = [(h2, c)]
    rw [List.filter_comm]
    simp [List.filter_append, hsubs', hb21]
  · have := lookup_any_eq_copies_any hwfd c.resource (fun d => env d.id)
    simpa [RegistryState.isDirty, registeredCopies] using this
  · have := dirtyCount_copiesOf (fun d => env d.id)
      (unregIndex (regIndex (regIndex (runOps ops).index c) c) c)
    simpa [RegistryState.dirtyCount, registeredCopies] using this
  · exact not_mem_copiesOf_unregIndex hwfs c
  · show ((((runOps ops).subs ++ [(h1, c)]) ++ [(h2, c)]).filter
        (fun p => !(p.1 == h2))).filter (fun p => p.2 == c) = [(h1, c)]
    rw [List.filter_comm]
    simp [List.filter_append, hsubs', hb12]

/-- Claim C10, witness at a concrete input. -/
theorem C10_dispose_either_handle_removes_witness :
    subsFor (runOps []) { id := 0, resource := "file:///f1", capabilities := 0 } = [] ∧
    (1 : Nat) ≠ 2 ∧
    ({ id := 0, resource := "file:///f1", capabilities := 0 } : WorkingCopy)
        ∉ registeredCopies (disposeHandle (fun _ => true)
            (registerWorkingCopy (registerWorkingCopy (runOps [])
              { id := 0, resource := "file:///f1", capabilities := 0 } 1)
              { id := 0, resource := "file:///f1", capabilities := 0 } 2)
            { id := 0, resource := "file:///f1", capabilities := 0 } 1).1 ∧
    subsFor (disposeHandle (fun _ => true)
            (registerWorkingCopy (registerWorkingCopy (runOps [])
              { id := 0, resource := "file:///f1", capabilities := 0 } 1)
              { id := 0, resource := "file:///f1", capabilities := 0 } 2)
            { id := 0, resource := "file:///f1", capabilities := 0 } 2).1
        { id := 0, resource := "file:///f1", capabilities := 0 }
      = [(1, { id := 0, resource := "file:///f1", capabilities := 0 })] :=
  ⟨by decide, by decide,
   (C10_dispose_either_handle_removes [] (fun _ => true) _ 1 2 (by decide) (by decide)).1.1,
   (C10_dispose_either_handle_removes [] (fun _ => true) _ 1 2 (by decide) (by decide)).2.2⟩
